import Mathlib

/-!
Shallow embedding of the Pretty Drive backend (src/main.py, src/schemas.py).

The store is modelled as in-memory lists: a `folder` collection, a `fileitem`
collection, and the blob store (the `uploads/` directory) as an association
list from storage path to byte content.  Mongo ObjectIds are modelled as
opaque strings; `str(folder_id)` is then the identity, and `parent_id`
fields hold such strings (or `none`).  Python truthiness on optional strings
(`parent_id or None`, `if not pid`, `if not path`) is modelled by `strOrNone`
and explicit emptiness tests.  Filesystem exceptions raised by `os.remove`
are modelled by an oracle `raises : String → Bool`; the code swallows them
(`try/except: pass`).  Unbounded Python loops/recursion are given explicit
fuel; returning `none`/`.diverged` for every fuel value means the Python
code never terminates on that input.
-/

structure Folder where
  id : String
  name : String
  parent_id : Option String
deriving Repr, DecidableEq

structure FileItem where
  id : String
  name : String
  parent_id : Option String
  size : Nat
  mime_type : String
  storage_path : Option String
deriving Repr, DecidableEq

/-- Database state: the `folder` collection, the `fileitem` collection, and
the on-disk blob store as an association list path ↦ bytes. -/
structure DB where
  folders : List Folder
  files : List FileItem
  blobs : List (String × List Nat)
deriving Repr, DecidableEq

/-- Python `x or None` on an optional string: empty string is falsy. -/
def strOrNone : Option String → Option String
  | none => none
  | some s => if s = "" then none else some s

/-- Python `str.strip()`: drop leading and trailing whitespace. -/
def pyStrip (s : String) : String :=
  ⟨((s.data.dropWhile Char.isWhitespace).reverse.dropWhile Char.isWhitespace).reverse⟩

/-- Mongo `delete_one`: removes the first record matching the predicate. -/
def removeFirst (p : α → Bool) : List α → List α
  | [] => []
  | x :: xs => if p x then xs else x :: removeFirst p xs

/-- Mongo `find_one_and_update`: updates the first record matching the
predicate, returning the updated list. -/
def updateFirst (p : α → Bool) (u : α → α) : List α → List α
  | [] => []
  | x :: xs => if p x then u x :: xs else x :: updateFirst p u xs

/-- The error outcomes of the HTTP handlers that the claims talk about. -/
inductive Err where
  | validation
  | notFound
deriving Repr, DecidableEq

/-- `GET /drive/list` (main.py `list_items`): filter both collections by
`parent_id` (with `parent_id or None` truthiness) and sort each by name. -/
def list_items (db : DB) (parent_id : Option String) : List Folder × List FileItem :=
  let filt := strOrNone parent_id
  ((db.folders.filter (fun f => f.parent_id = filt)).mergeSort
      (fun a b => decide (a.name ≤ b.name)),
   (db.files.filter (fun f => f.parent_id = filt)).mergeSort
      (fun a b => decide (a.name ≤ b.name)))

/-- `POST /drive/folder` (main.py `create_folder`): trim the name, reject if
empty, insert with `parent_id or None`.  `newId` stands for the ObjectId
generated by `insert_one`. -/
def create_folder (db : DB) (newId : String) (name : String)
    (parent_id : Option String) : Except Err (DB × Folder) :=
  let doc : Folder := ⟨newId, pyStrip name, strOrNone parent_id⟩
  if doc.name = "" then .error .validation
  else .ok ({ db with folders := db.folders ++ [doc] }, doc)

/-- `POST /drive/upload` (main.py `upload_file`): write the bytes to a fresh
`dest_path`, then insert a record whose `name` is the client filename
verbatim (`safe_name = file.filename`, no trimming) and whose `mime_type`
defaults to `application/octet-stream` when the client value is falsy. -/
def upload_file (db : DB) (newId : String) (dest_path : String)
    (parent_id : Option String) (filename : String) (content : List Nat)
    (content_type : Option String) : DB × FileItem :=
  let doc : FileItem :=
    { id := newId
      name := filename
      parent_id := strOrNone parent_id
      size := content.length
      mime_type := (strOrNone content_type).getD "application/octet-stream"
      storage_path := some dest_path }
  ({ db with blobs := db.blobs ++ [(dest_path, content)],
             files := db.files ++ [doc] }, doc)

/-- `GET /drive/download/{file_id}` (main.py `download_file`): 404 when the
record is missing, 404 when `storage_path` is falsy or the blob is gone from
disk, otherwise a `FileResponse` carrying the bytes, the record's
`mime_type` and its `name`. -/
def download_file (db : DB) (file_id : String) :
    Except Err (List Nat × String × String) :=
  match db.files.find? (fun f => f.id = file_id) with
  | none => .error .notFound
  | some doc =>
    match doc.storage_path with
    | none => .error .notFound
    | some p =>
      if p = "" then .error .notFound
      else
        match db.blobs.lookup p with
        | none => .error .notFound
        | some bytes => .ok (bytes, doc.mime_type, doc.name)

inductive ItemType where
  | file
  | folder
deriving Repr, DecidableEq

/-- `PATCH /drive/rename` (main.py `rename_item`): trim, 400 if empty, then
`find_one_and_update` on the collection selected by `type`; 404 when no
record matched. -/
def rename_item (db : DB) (ty : ItemType) (id : String) (name : String) :
    Except Err DB :=
  let new_name := pyStrip name
  if new_name = "" then .error .validation
  else
    match ty with
    | .file =>
      match db.files.find? (fun f => f.id = id) with
      | none => .error .notFound
      | some _ =>
        .ok { db with
              files := updateFirst (fun f => f.id = id)
                (fun f => { f with name := new_name }) db.files }
    | .folder =>
      match db.folders.find? (fun f => f.id = id) with
      | none => .error .notFound
      | some _ =>
        .ok { db with
              folders := updateFirst (fun f => f.id = id)
                (fun f => { f with name := new_name }) db.folders }

/-- The `try: if storage_path and os.path.exists: os.remove except: pass`
block: best-effort blob removal; `raises p` models `os.remove(p)` throwing,
in which case the exception is swallowed and the blob stays. -/
def tryRemoveBlob (raises : String → Bool) (blobs : List (String × List Nat))
    (sp : Option String) : List (String × List Nat) :=
  match sp with
  | none => blobs
  | some p =>
    if p ≠ "" ∧ (blobs.lookup p).isSome ∧ ¬ raises p then
      blobs.filter (fun b => b.1 ≠ p)
    else blobs

/-- `DELETE /drive/item/{id}?type=file` (main.py `delete_item`, file branch):
404 when missing, best-effort blob removal, then `delete_one` on the record. -/
def delete_item_file (raises : String → Bool) (db : DB) (item_id : String) :
    Except Err DB :=
  match db.files.find? (fun f => f.id = item_id) with
  | none => .error .notFound
  | some doc =>
    .ok { db with
          blobs := tryRemoveBlob raises db.blobs doc.storage_path,
          files := removeFirst (fun g => g.id = doc.id) db.files }

/-- One event of the recursive deletion, for stating the deletion order. -/
inductive DelEvent where
  | delFile (id : String)
  | delFolder (id : String)
deriving Repr, DecidableEq

/-- Body of the file loop in `delete_folder_recursive`: for one file of the
snapshot, best-effort blob removal then `delete_one` of its record. -/
def deleteFileDoc (raises : String → Bool) (db : DB) (f : FileItem) : DB :=
  { db with
    blobs := tryRemoveBlob raises db.blobs f.storage_path,
    files := removeFirst (fun g => g.id = f.id) db.files }

/-- The `for f in db["fileitem"].find({"parent_id": str(folder_id)})` loop,
iterating over the snapshot list. -/
def delete_files_loop (raises : String → Bool) : DB → List FileItem → DB
  | db, [] => db
  | db, f :: fs => delete_files_loop raises (deleteFileDoc raises db f) fs

mutual

/-- main.py `delete_folder_recursive`: clear the files whose `parent_id` is
this folder's id, recurse into each subfolder, then delete the folder's own
record last.  The Python recursion is unbounded; `none` for every fuel value
means it never returns.  Also returns the trace of record deletions. -/
def delete_folder_recursive (raises : String → Bool) :
    Nat → DB → String → Option (DB × List DelEvent)
  | 0, _, _ => none
  | fuel + 1, db, folder_id =>
    let fs := db.files.filter (fun f => f.parent_id = some folder_id)
    let db1 := delete_files_loop raises db fs
    let subs := (db1.folders.filter (fun g => g.parent_id = some folder_id)).map (·.id)
    match delete_folder_list raises fuel db1 subs with
    | none => none
    | some (db2, tr) =>
      some ({ db2 with folders := db2.folders.filter (fun g => ¬ g.id = folder_id) },
            fs.map (fun f => .delFile f.id) ++ tr ++ [.delFolder folder_id])

/-- The `for sub in db["folder"].find(...)` loop over the subfolder snapshot. -/
def delete_folder_list (raises : String → Bool) :
    Nat → DB → List String → Option (DB × List DelEvent)
  | _, db, [] => some (db, [])
  | fuel, db, x :: xs =>
    match delete_folder_recursive raises fuel db x with
    | none => none
    | some (db1, tr1) =>
      match delete_folder_list raises fuel db1 xs with
      | none => none
      | some (db2, tr2) => some (db2, tr1 ++ tr2)

end

/-- Outcome of the folder branch of `DELETE /drive/item`. -/
inductive DelResult where
  | notFound
  | diverged
  | ok (db : DB) (trace : List DelEvent)
deriving Repr, DecidableEq

/-- `DELETE /drive/item/{id}?type=folder` (main.py `delete_item`, folder
branch): 404 when the folder record is missing, else run
`delete_folder_recursive`; `.diverged` records fuel exhaustion. -/
def delete_item_folder (raises : String → Bool) (fuel : Nat) (db : DB)
    (item_id : String) : DelResult :=
  match db.folders.find? (fun f => f.id = item_id) with
  | none => .notFound
  | some folder =>
    match delete_folder_recursive raises fuel db folder.id with
    | none => .diverged
    | some (db2, tr) => .ok db2 tr

/-- The `while current:` loop of main.py `get_breadcrumbs`: append
`{id, name}`, break on a falsy `parent_id`, else follow it.  `none` for
every fuel value means the Python loop never exits. -/
def breadcrumbsAux (db : DB) :
    Nat → Option Folder → List (String × String) → Option (List (String × String))
  | _, none, acc => some acc
  | 0, some _, _ => none
  | fuel + 1, some c, acc =>
    let acc1 := acc ++ [(c.id, c.name)]
    match strOrNone c.parent_id with
    | none => some acc1
    | some pid => breadcrumbsAux db fuel (db.folders.find? (fun g => g.id = pid)) acc1

/-- `GET /drive/breadcrumbs/{folder_id}` (main.py `get_breadcrumbs`): walk
`parent_id` upward from the start folder, then reverse into root-to-leaf
order.  A missing start folder yields `some []` (HTTP 200 with an empty
chain), never a 404. -/
def get_breadcrumbs (db : DB) (folder_id : String) (fuel : Nat) :
    Option (List (String × String)) :=
  (breadcrumbsAux db fuel (db.folders.find? (fun g => g.id = folder_id)) []).map
    List.reverse

/-! ### Subtrees presented as inductive trees

For the recursive-deletion claims, an acyclic subtree of the store is
presented as an inductive tree: a folder record, its direct file records,
and the subtrees of its child folders.  `subT t fol fil` states that `t` is
exactly the subtree of the store `(fol, fil)` rooted at `t`'s root folder:
at every node, the store's files with that parent are exactly the node's
files (in store order) and the store's folders with that parent are exactly
the node's children's roots (in store order). -/

mutual
inductive FTree where
  | node : Folder → List FileItem → FForest → FTree
inductive FForest where
  | nil : FForest
  | cons : FTree → FForest → FForest
end

def FTree.rootFolder : FTree → Folder
  | .node f _ _ => f

def FTree.rootId (t : FTree) : String :=
  t.rootFolder.id

mutual
def rootsF : FForest → List Folder
  | .nil => []
  | .cons t ts => t.rootFolder :: rootsF ts
end

mutual
def folderIdsT : FTree → List String
  | .node f _ cs => f.id :: folderIdsF cs

def folderIdsF : FForest → List String
  | .nil => []
  | .cons t ts => folderIdsT t ++ folderIdsF ts
end

mutual
def filesT : FTree → List FileItem
  | .node _ fls cs => fls ++ filesF cs

def filesF : FForest → List FileItem
  | .nil => []
  | .cons t ts => filesT t ++ filesF ts
end

mutual
def htT : FTree → Nat
  | .node _ _ cs => htF cs + 1

def htF : FForest → Nat
  | .nil => 0
  | .cons t ts => max (htT t) (htF ts)
end

mutual
def traceT : FTree → List DelEvent
  | .node f fls cs =>
    fls.map (fun x => .delFile x.id) ++ traceF cs ++ [.delFolder f.id]

def traceF : FForest → List DelEvent
  | .nil => []
  | .cons t ts => traceT t ++ traceF ts
end

mutual
def subT : FTree → List Folder → List FileItem → Prop
  | .node f fls cs, fol, fil =>
    fil.filter (fun x => x.parent_id = some f.id) = fls ∧
    fol.filter (fun g => g.parent_id = some f.id) = rootsF cs ∧
    subF cs fol fil

def subF : FForest → List Folder → List FileItem → Prop
  | .nil, _, _ => True
  | .cons t ts, fol, fil => subT t fol fil ∧ subF ts fol fil
end

/-- A file record whose `parent_id` is one of the given folder ids. -/
def parentIn (ids : List String) (x : FileItem) : Bool :=
  match x.parent_id with
  | none => false
  | some p => decide (p ∈ ids)

/-- The two ways the breadcrumb walk stops without error at a folder: its
`parent_id` is falsy (null or empty), or the referenced parent record does
not exist (an implicit root). -/
def implicitRootStop (db : DB) (c : Folder) : Prop :=
  strOrNone c.parent_id = none ∨
  ∃ pid, strOrNone c.parent_id = some pid ∧
    db.folders.find? (fun g => g.id = pid) = none

/-! ### Concrete store states used by witnesses and counterexamples -/

/-- Oracle under which no `os.remove` call raises. -/
def noRaise : String → Bool := fun _ => false

def dbEmpty : DB := ⟨[], [], []⟩

/-- Two folders whose parent links form a two-cycle: A.parent = B,
B.parent = A, both otherwise rootless. -/
def fA : Folder := ⟨"a", "A", some "b"⟩
def fB : Folder := ⟨"b", "B", some "a"⟩
def dbCycBread : DB := ⟨[fA, fB], [], []⟩

/-- A folder whose stored `parent_id` is its own id. -/
def dbSelfParent : DB := ⟨[⟨"s", "S", some "s"⟩], [], []⟩

/-- A 3-level chain root → A → B → C. -/
def cA : Folder := ⟨"a", "A", none⟩
def cB : Folder := ⟨"b", "B", some "a"⟩
def cC : Folder := ⟨"c", "C", some "b"⟩
def dbChain3 : DB := ⟨[cA, cB, cC], [], []⟩

/-- One file whose blob is present on disk. -/
def fDl : FileItem := ⟨"f1", "a.txt", none, 2, "text/plain", some "pp"⟩
def dbDl : DB := ⟨[], [fDl], [("pp", [104, 105])]⟩

/-- One file record whose blob is missing from disk. -/
def dbDlGone : DB := ⟨[], [fDl], []⟩

/-- A subtree for the recursive-deletion witnesses: folder `r` holding file
`x1` and child folder `A`; `A` holds file `x2` and empty child folder `B`;
plus an unrelated folder `q` with file `y`. -/
def fr : Folder := ⟨"r", "R", none⟩
def fsubA : Folder := ⟨"A", "docs", some "r"⟩
def fsubB : Folder := ⟨"B", "img", some "A"⟩
def fQ : Folder := ⟨"q", "Q", none⟩
def fx1 : FileItem := ⟨"x1", "x1.txt", some "r", 1, "m", some "p1"⟩
def fx2 : FileItem := ⟨"x2", "x2.txt", some "A", 1, "m", some "p2"⟩
def fy : FileItem := ⟨"y", "y.txt", some "q", 1, "m", some "py"⟩
def dbTreeEx : DB :=
  ⟨[fr, fsubA, fsubB, fQ], [fx1, fx2, fy],
   [("p1", [1]), ("p2", [2]), ("py", [3])]⟩

/-- The tree presentation of the subtree of `dbTreeEx` rooted at `r`. -/
def tTreeEx : FTree :=
  .node fr [fx1] (.cons (.node fsubA [fx2] (.cons (.node fsubB [] .nil) .nil)) .nil)

/-! ### Theorems -/

theorem breadcrumbsAux_cyc (n : Nat) : ∀ acc,
    breadcrumbsAux dbCycBread n (some fA) acc = none ∧
    breadcrumbsAux dbCycBread n (some fB) acc = none := by
  induction n with
  | zero => intro acc; exact ⟨rfl, rfl⟩
  | succ n ih =>
    intro acc
    exact ⟨(ih (acc ++ [("a", "A")])).2, (ih (acc ++ [("b", "B")])).1⟩

/-- C1 check: on the two-cycle A ⇄ B (both otherwise rootless) the
breadcrumb walk of `get_breadcrumbs` revisits the two ids forever: for
every fuel value the loop is still running, so the Python `while` loop
never terminates and there is no cycle guard. -/
theorem get_breadcrumbs_cycle_diverges (fuel : Nat) :
    get_breadcrumbs dbCycBread "a" fuel = none := by
  have h : dbCycBread.folders.find? (fun g => g.id = "a") = some fA := rfl
  unfold get_breadcrumbs
  rw [h, (breadcrumbsAux_cyc fuel []).1]
  rfl

theorem delete_self_parent_diverges_aux (n : Nat) :
    delete_folder_recursive noRaise n dbSelfParent "s" = none := by
  induction n with
  | zero => rw [delete_folder_recursive]
  | succ n ih =>
    rw [delete_folder_recursive]
    have hs : delete_files_loop noRaise dbSelfParent
        (List.filter (fun f => decide (f.parent_id = some "s")) dbSelfParent.files)
        = dbSelfParent := rfl
    simp only [hs]
    have hsub : List.map (fun x => x.id)
        (List.filter (fun g => decide (g.parent_id = some "s")) dbSelfParent.folders)
        = ["s"] := rfl
    simp only [hsub]
    rw [delete_folder_list, ih]

/-- C2 check: `delete_item` on the existing folder `s`, whose stored
`parent_id` is its own id, recurses forever: the folder is found, but for
every fuel value `delete_folder_recursive` has not returned, so the Python
recursion never terminates — there is no visited-set or depth cutoff. -/
theorem delete_item_self_parent_diverges (fuel : Nat) :
    delete_item_folder noRaise fuel dbSelfParent "s" = .diverged := by
  unfold delete_item_folder
  have h : dbSelfParent.folders.find? (fun f => f.id = "s") = some ⟨"s", "S", some "s"⟩ := rfl
  rw [h]
  simp only [delete_self_parent_diverges_aux]

/-- C3 counterexample: on an empty store, `GetBreadcrumbs "zzz"` succeeds
with an empty chain (HTTP 200) instead of failing with `NotFound`. -/
theorem get_breadcrumbs_missing_returns_empty :
    get_breadcrumbs dbEmpty "zzz" 10 = some [] := rfl

/-- C3 amended: whenever the requested id matches no folder record,
`GetBreadcrumbs` returns success with the empty chain (never `NotFound`). -/
theorem get_breadcrumbs_missing_general (db : DB) (folder_id : String) (fuel : Nat)
    (h : db.folders.find? (fun g => g.id = folder_id) = none) :
    get_breadcrumbs db folder_id fuel = some [] := by
  unfold get_breadcrumbs
  rw [h]
  cases fuel <;> rfl

theorem get_breadcrumbs_missing_general_witness :
    get_breadcrumbs dbDl "nope" 7 = some [] :=
  get_breadcrumbs_missing_general dbDl "nope" 7 rfl

/-- C4 counterexample: uploading a file whose client filename is the
whitespace string persists a `fileitem` record whose name is untrimmed
(and empty after trimming). -/
theorem upload_persists_untrimmed_name :
    ∃ f ∈ (upload_file dbEmpty "x1" "p" none "   " [1, 2] none).1.files,
      pyStrip f.name ≠ f.name ∧ pyStrip f.name = "" := by
  refine ⟨⟨"x1", "   ", none, 2, "application/octet-stream", some "p"⟩, ?_, ?_, ?_⟩
  · simp [upload_file, dbEmpty, strOrNone]
  · decide
  · decide

theorem mem_updateFirst {p : α → Bool} {u : α → α} :
    ∀ {l : List α} {y : α}, y ∈ updateFirst p u l → y ∈ l ∨ ∃ x, x ∈ l ∧ y = u x := by
  intro l
  induction l with
  | nil => intro y h; simp [updateFirst] at h
  | cons x xs ih =>
    intro y h
    rw [updateFirst] at h
    by_cases hp : p x
    · rw [if_pos hp] at h
      rcases List.mem_cons.1 h with h | h
      · exact .inr ⟨x, List.mem_cons_self .., h⟩
      · exact .inl (List.mem_cons_of_mem _ h)
    · rw [if_neg hp] at h
      rcases List.mem_cons.1 h with h | h
      · exact .inl (h ▸ List.mem_cons_self ..)
      · rcases ih h with h | ⟨z, hz, hy⟩
        · exact .inl (List.mem_cons_of_mem _ h)
        · exact .inr ⟨z, List.mem_cons_of_mem _ hz, hy⟩

/-- C4 amended: `create_folder` appends a single record whose name is the
trimmed request name and non-empty, and `rename_item` only rewrites the
matched record's name to the trimmed non-empty request name — upload,
however, is exempt (it stores the client filename verbatim, see the
counterexample). -/
theorem create_and_rename_store_trimmed_names :
    (∀ db newId name p db2 f, create_folder db newId name p = .ok (db2, f) →
      f.name = pyStrip name ∧ f.name ≠ "" ∧ db2.folders = db.folders ++ [f] ∧
      db2.files = db.files) ∧
    (∀ db ty id name db2, rename_item db ty id name = .ok db2 →
      pyStrip name ≠ "" ∧
      (∀ g ∈ db2.folders, g ∈ db.folders ∨ g.name = pyStrip name) ∧
      (∀ x ∈ db2.files, x ∈ db.files ∨ x.name = pyStrip name)) := by
  constructor
  · intro db newId name p db2 f h
    rw [create_folder] at h
    by_cases he : pyStrip name = ""
    · simp [he] at h
    · simp only [he, if_false, Except.ok.injEq, Prod.mk.injEq] at h
      obtain ⟨hdb, hf⟩ := h
      subst hf
      exact ⟨rfl, he, by rw [← hdb], by rw [← hdb]⟩
  · intro db ty id name db2 h
    rw [rename_item.eq_def] at h
    by_cases he : pyStrip name = ""
    · simp [he] at h
    · simp only [he, if_false] at h
      refine ⟨he, ?_⟩
      cases ty with
      | file =>
        cases hfind : db.files.find? (fun f => f.id = id) with
        | none => rw [hfind] at h; exact absurd h (by simp)
        | some doc =>
          rw [hfind] at h
          simp only [Except.ok.injEq] at h
          subst h
          constructor
          · intro g hg; exact .inl hg
          · intro x hx
            rcases mem_updateFirst hx with hx | ⟨z, _, hz⟩
            · exact .inl hx
            · exact .inr (by rw [hz])
      | folder =>
        cases hfind : db.folders.find? (fun f => f.id = id) with
        | none => rw [hfind] at h; exact absurd h (by simp)
        | some doc =>
          rw [hfind] at h
          simp only [Except.ok.injEq] at h
          subst h
          constructor
          · intro g hg
            rcases mem_updateFirst hg with hg | ⟨z, _, hz⟩
            · exact .inl hg
            · exact .inr (by rw [hz])
          · intro x hx; exact .inl hx

theorem create_and_rename_store_trimmed_names_witness :
    (⟨"f1", "Docs", none⟩ : Folder).name = pyStrip "  Docs  " ∧
      (⟨"f1", "Docs", none⟩ : Folder).name ≠ "" ∧
      (⟨[⟨"f1", "Docs", none⟩], [], []⟩ : DB).folders = dbEmpty.folders ++ [⟨"f1", "Docs", none⟩] ∧
      (⟨[⟨"f1", "Docs", none⟩], [], []⟩ : DB).files = dbEmpty.files :=
  create_and_rename_store_trimmed_names.1 dbEmpty "f1" "  Docs  " none
    ⟨[⟨"f1", "Docs", none⟩], [], []⟩ ⟨"f1", "Docs", none⟩ rfl

theorem removeFirst_eq_filter {α β : Type} [DecidableEq β] (key : α → β) (k : β) :
    ∀ l : List α, (l.map key).Nodup →
      removeFirst (fun x => key x = k) l = l.filter (fun x => ¬ key x = k) := by
  intro l
  induction l with
  | nil => intro _; rfl
  | cons x xs ih =>
    intro hnd
    rw [List.map_cons, List.nodup_cons] at hnd
    rw [removeFirst, List.filter_cons]
    by_cases hk : key x = k
    · rw [if_pos (by simpa using hk)]
      have hall : ∀ y ∈ xs, ¬ key y = k := by
        intro y hy hc
        apply hnd.1
        rw [hk, ← hc]
        exact List.mem_map_of_mem key hy
      rw [if_neg (by simpa using hk)]
      exact (List.filter_eq_self.2 (by intro y hy; simpa using hall y hy)).symm
    · rw [if_neg (by simpa using hk), if_pos (by simpa using hk), ih hnd.2]

/-- C7: deleting an existing file record succeeds for every behaviour of the
blob store — whether the blob is present, already gone, or its removal
raises — and always removes exactly that metadata record, touching no
folder records. -/
theorem delete_file_best_effort (raises : String → Bool) (db : DB)
    (item_id : String) (doc : FileItem)
    (hfind : db.files.find? (fun f => f.id = item_id) = some doc)
    (hnd : (db.files.map (fun f => f.id)).Nodup) :
    ∃ db2, delete_item_file raises db item_id = .ok db2 ∧
      db2.files = db.files.filter (fun g => ¬ g.id = item_id) ∧
      db2.folders = db.folders := by
  have hid : doc.id = item_id := by
    have := List.find?_some hfind
    simpa using this
  refine ⟨⟨db.folders, removeFirst (fun g => g.id = doc.id) db.files,
            tryRemoveBlob raises db.blobs doc.storage_path⟩, ?_, ?_, rfl⟩
  · rw [delete_item_file, hfind]
  · rw [hid]
    simpa using removeFirst_eq_filter (fun g : FileItem => g.id) item_id db.files hnd

theorem delete_file_best_effort_witness :
    ∃ db2, delete_item_file (fun _ => true) dbDlGone "f1" = .ok db2 ∧
      db2.files = dbDlGone.files.filter (fun g => ¬ g.id = "f1") ∧
      db2.folders = dbDlGone.folders :=
  delete_file_best_effort (fun _ => true) dbDlGone "f1" fDl rfl (by decide)

/-- C8: `download_file` yields `NotFound` when the record is missing, and
also when the record exists but its `storage_path` is falsy or the backing
blob is no longer on disk; when record, path and blob are all present it
returns the blob's bytes together with the record's `mime_type` and `name`.
(The embedding is a total function, so none of these cases is a crash.) -/
theorem download_file_cases (db : DB) (file_id : String) :
    (db.files.find? (fun f => f.id = file_id) = none →
      download_file db file_id = .error .notFound) ∧
    (∀ doc, db.files.find? (fun f => f.id = file_id) = some doc →
      (doc.storage_path = none ∨ doc.storage_path = some "" ∨
        ∃ p, doc.storage_path = some p ∧ db.blobs.lookup p = none) →
      download_file db file_id = .error .notFound) ∧
    (∀ doc p bytes, db.files.find? (fun f => f.id = file_id) = some doc →
      doc.storage_path = some p → ¬ p = "" → db.blobs.lookup p = some bytes →
      download_file db file_id = .ok (bytes, doc.mime_type, doc.name)) := by
  refine ⟨?_, ?_, ?_⟩
  · intro h; rw [download_file, h]
  · intro doc hfind hbad
    rcases hbad with h | h | ⟨p, hp, hl⟩
    · simp [download_file, hfind, h]
    · simp [download_file, hfind, h]
    · by_cases hpe : p = ""
      · simp [download_file, hfind, hp, hpe]
      · simp only [download_file, hfind, hp]
        rw [if_neg hpe, hl]
  · intro doc p bytes hfind hp hpe hl
    simp only [download_file, hfind, hp]
    rw [if_neg hpe, hl]

theorem download_file_cases_witness :
    download_file dbDlGone "f1" = .error .notFound ∧
      download_file dbDl "f1" = .ok ([104, 105], "text/plain", "a.txt") :=
  ⟨(download_file_cases dbDlGone "f1").2.1 fDl rfl (.inr (.inr ⟨"pp", rfl, rfl⟩)),
   (download_file_cases dbDl "f1").2.2 fDl "pp" [104, 105] rfl rfl (by decide) rfl⟩

/-- C9: a successful `create_folder n p` followed by `list_items p` lists a
folder whose name is the trimmed `n` (the new record itself). -/
theorem create_then_list (db : DB) (newId name : String) (p : Option String)
    (db2 : DB) (f : Folder)
    (hok : create_folder db newId name p = .ok (db2, f)) :
    ∃ g ∈ (list_items db2 p).1, g.name = pyStrip name := by
  rw [create_folder] at hok
  by_cases he : pyStrip name = ""
  · simp [he] at hok
  · simp only [he, if_false, Except.ok.injEq, Prod.mk.injEq] at hok
    obtain ⟨hdb, hf⟩ := hok
    subst hf
    refine ⟨⟨newId, pyStrip name, strOrNone p⟩, ?_, rfl⟩
    rw [list_items]
    simp only
    rw [List.Perm.mem_iff (List.mergeSort_perm _ _), List.mem_filter]
    refine ⟨?_, by simp⟩
    rw [← hdb]
    exact List.mem_append_right _ (List.mem_singleton_self _)

theorem create_then_list_witness :
    ∃ g ∈ (list_items ⟨[⟨"f1", "Docs", none⟩], [], []⟩ none).1,
      g.name = pyStrip "  Docs  " :=
  create_then_list dbEmpty "f1" "  Docs  " none ⟨[⟨"f1", "Docs", none⟩], [], []⟩
    ⟨"f1", "Docs", none⟩ rfl

theorem find_by_id {l : List Folder} (hnd : (l.map (fun g => g.id)).Nodup)
    {c : Folder} (hc : c ∈ l) : l.find? (fun g => g.id = c.id) = some c := by
  induction l with
  | nil => exact absurd hc (List.not_mem_nil c)
  | cons x xs ih =>
    rw [List.map_cons, List.nodup_cons] at hnd
    by_cases hx : x.id = c.id
    · rcases List.mem_cons.1 hc with h | h
      · subst h; simp [List.find?_cons]
      · exact absurd (hx ▸ List.mem_map_of_mem (fun g => g.id) h) hnd.1
    · rcases List.mem_cons.1 hc with h | h
      · exact absurd (h ▸ rfl) hx
      · rw [List.find?_cons, decide_eq_false hx]
        exact ih hnd.2 h

theorem breadcrumbsAux_chain (db : DB)
    (hnd : (db.folders.map (fun g => g.id)).Nodup) :
    ∀ (chain : List Folder) (c : Folder) (acc : List (String × String)) (fuel : Nat),
      chain.length < fuel →
      (∀ x ∈ c :: chain, x ∈ db.folders) →
      List.Chain' (fun a b => strOrNone a.parent_id = some b.id) (c :: chain) →
      (∀ clast, (c :: chain).getLast? = some clast → implicitRootStop db clast) →
      breadcrumbsAux db fuel (some c) acc =
        some (acc ++ (c :: chain).map (fun x => (x.id, x.name))) := by
  intro chain
  induction chain with
  | nil =>
    intro c acc fuel hfuel _ _ hlast
    obtain ⟨fuel, rfl⟩ : ∃ n, fuel = n + 1 := ⟨fuel - 1, by omega⟩
    have hstop := hlast c rfl
    rcases hstop with h | ⟨pid, hpid, hfind⟩
    · simp only [breadcrumbsAux, h]
      rfl
    · simp only [breadcrumbsAux, hpid, hfind]
      cases fuel <;> rfl
  | cons c1 rest ih =>
    intro c acc fuel hfuel hmem hch hlast
    obtain ⟨fuel, rfl⟩ : ∃ n, fuel = n + 1 := ⟨fuel - 1, by omega⟩
    have hlink : strOrNone c.parent_id = some c1.id := (List.chain'_cons.1 hch).1
    simp only [breadcrumbsAux, hlink, find_by_id hnd (hmem c1 (by simp))]
    rw [ih c1 (acc ++ [(c.id, c.name)]) fuel (by simpa using hfuel)
      (fun x hx => hmem x (List.mem_cons_of_mem _ hx))
      (List.chain'_cons.1 hch).2
      (fun clast h => hlast clast (by rw [List.getLast?_cons_cons]; exact h))]
    simp

/-- C6: starting from a folder `c0` whose upward parent chain is
`c0, c1, …, ck` — each link following `parent_id` to an existing folder —
and whose last element stops the walk without error (null parent, or parent
record missing, the implicit root), `get_breadcrumbs` succeeds and returns
the collected `{id, name}` pairs in root-to-leaf order (the reverse of the
collection order). -/
theorem get_breadcrumbs_chain (db : DB) (c0 : Folder) (chain : List Folder)
    (fuel : Nat)
    (hnd : (db.folders.map (fun g => g.id)).Nodup)
    (hlen : chain.length < fuel)
    (hmem : ∀ x ∈ c0 :: chain, x ∈ db.folders)
    (hchain : List.Chain' (fun a b => strOrNone a.parent_id = some b.id) (c0 :: chain))
    (hlast : ∀ clast, (c0 :: chain).getLast? = some clast → implicitRootStop db clast) :
    get_breadcrumbs db c0.id fuel =
      some (((c0 :: chain).map (fun x => (x.id, x.name))).reverse) := by
  rw [get_breadcrumbs, find_by_id hnd (hmem c0 (by simp)),
    breadcrumbsAux_chain db hnd chain c0 [] fuel hlen hmem hchain hlast]
  simp

/-- C6 witness: on the chain root → A → B → C, `GetBreadcrumbs(C)` returns
`[A, B, C]` in that order. -/
theorem get_breadcrumbs_chain_witness :
    get_breadcrumbs dbChain3 "c" 5 =
      some ((([cC, cB, cA]).map (fun x => (x.id, x.name))).reverse) := by
  have h := get_breadcrumbs_chain dbChain3 cC [cB, cA] 5 (by decide) (by decide)
    (by intro x hx; fin_cases hx <;> simp [dbChain3, cC, cB, cA])
    (by refine List.chain'_cons.2 ⟨by decide, List.chain'_cons.2 ⟨by decide, ?_⟩⟩
        exact List.chain'_singleton _)
    (by intro clast h
        have hl : clast = cA := by simpa using h.symm
        rw [hl]
        exact .inl rfl)
  exact h

theorem parentIn_nil (x : FileItem) : parentIn [] x = false := by
  rw [parentIn.eq_def]
  cases x.parent_id <;> simp

theorem parentIn_cons (i : String) (ids : List String) (x : FileItem) :
    parentIn (i :: ids) x = (decide (x.parent_id = some i) || parentIn ids x) := by
  rw [parentIn.eq_def, parentIn.eq_def]
  cases x.parent_id with
  | none => simp
  | some p => simp [List.mem_cons, eq_comm]

theorem parentIn_append (l1 l2 : List String) (x : FileItem) :
    parentIn (l1 ++ l2) x = (parentIn l1 x || parentIn l2 x) := by
  rw [parentIn.eq_def, parentIn.eq_def, parentIn.eq_def]
  cases x.parent_id with
  | none => simp
  | some p => simp [List.mem_append]

theorem delete_files_loop_folders (raises : String → Bool) :
    ∀ (s : List FileItem) (db : DB),
      (delete_files_loop raises db s).folders = db.folders := by
  intro s
  induction s with
  | nil => intro db; rfl
  | cons f fs ih => intro db; rw [delete_files_loop]; exact ih _

theorem delete_files_loop_files (raises : String → Bool) :
    ∀ (s : List FileItem) (db : DB),
      (delete_files_loop raises db s).files =
        s.foldl (fun acc f => removeFirst (fun g => g.id = f.id) acc) db.files := by
  intro s
  induction s with
  | nil => intro db; rfl
  | cons f fs ih => intro db; rw [delete_files_loop, List.foldl_cons]; exact ih _

theorem foldl_removeFirst_skip :
    ∀ (s : List FileItem) (x : FileItem) (l : List FileItem),
      (∀ f ∈ s, ¬ f.id = x.id) →
      s.foldl (fun acc f => removeFirst (fun g => g.id = f.id) acc) (x :: l) =
        x :: s.foldl (fun acc f => removeFirst (fun g => g.id = f.id) acc) l := by
  intro s
  induction s with
  | nil => intro x l _; rfl
  | cons f fs ih =>
    intro x l hall
    rw [List.foldl_cons, List.foldl_cons, removeFirst,
      if_neg (by simpa using fun h => hall f (List.mem_cons_self ..) (by rw [h]))]
    exact ih x _ (fun g hg => hall g (List.mem_cons_of_mem _ hg))

theorem foldl_removeFirst_filter :
    ∀ (l : List FileItem), (l.map (fun x => x.id)).Nodup → ∀ (p : FileItem → Bool),
      (l.filter p).foldl (fun acc f => removeFirst (fun g => g.id = f.id) acc) l =
        l.filter (fun x => ¬ p x) := by
  intro l
  induction l with
  | nil => intro _ p; rfl
  | cons x xs ih =>
    intro hnd p
    rw [List.map_cons, List.nodup_cons] at hnd
    rw [List.filter_cons, List.filter_cons]
    by_cases hp : p x
    · rw [if_pos (by simpa using hp), if_neg (by simpa using hp), List.foldl_cons,
        removeFirst, if_pos (by simp)]
      exact ih hnd.2 p
    · rw [if_neg (by simpa using hp), if_pos (by simpa using hp),
        foldl_removeFirst_skip _ x xs (by
          intro f hf hc
          apply hnd.1
          rw [← hc]
          exact List.mem_map_of_mem _ (List.mem_of_mem_filter hf))]
      rw [ih hnd.2 p]

theorem delete_files_loop_spec (raises : String → Bool) (db : DB)
    (p : FileItem → Bool) (hnd : (db.files.map (fun x => x.id)).Nodup) :
    (delete_files_loop raises db (db.files.filter p)).folders = db.folders ∧
    (delete_files_loop raises db (db.files.filter p)).files =
      db.files.filter (fun x => ¬ p x) := by
  refine ⟨delete_files_loop_folders raises _ db, ?_⟩
  rw [delete_files_loop_files raises _ db, foldl_removeFirst_filter db.files hnd p]

theorem rootsF_id_mem : ∀ (ts : FForest) (g : Folder),
    g ∈ rootsF ts → g.id ∈ folderIdsF ts
  | .nil, g, hg => by rw [rootsF] at hg; exact absurd hg (List.not_mem_nil g)
  | .cons t ts, g, hg => by
    rw [rootsF] at hg
    rw [folderIdsF, List.mem_append]
    rcases List.mem_cons.1 hg with h | h
    · left
      cases t with
      | node f fls cs => rw [h, FTree.rootFolder, folderIdsT]; exact List.mem_cons_self ..
    · exact .inr (rootsF_id_mem ts g h)

mutual

theorem subT_filter : ∀ (t : FTree) (fol : List Folder) (fil : List FileItem)
    (P : Folder → Bool) (Q : FileItem → Bool),
    subT t fol fil →
    (∀ g ∈ fol, (∃ i ∈ folderIdsT t, g.parent_id = some i) → P g = true) →
    (∀ x ∈ fil, (∃ i ∈ folderIdsT t, x.parent_id = some i) → Q x = true) →
    subT t (fol.filter P) (fil.filter Q)
  | .node f fls cs, fol, fil, P, Q, hsub, hP, hQ => by
    obtain ⟨hfil, hfol, hcs⟩ := hsub
    have hroot : f.id ∈ folderIdsT (.node f fls cs) := by
      rw [folderIdsT]; exact List.mem_cons_self ..
    refine ⟨?_, ?_, ?_⟩
    · rw [List.filter_filter, ← hfil]
      apply List.filter_congr
      intro x hx
      by_cases hpx : x.parent_id = some f.id
      · simp [hpx, hQ x hx ⟨f.id, hroot, hpx⟩]
      · simp [hpx]
    · rw [List.filter_filter, ← hfol]
      apply List.filter_congr
      intro g hg
      by_cases hpg : g.parent_id = some f.id
      · simp [hpg, hP g hg ⟨f.id, hroot, hpg⟩]
      · simp [hpg]
    · exact subF_filter cs fol fil P Q hcs
        (fun g hg ⟨i, hi, hp⟩ => hP g hg ⟨i, by rw [folderIdsT]; exact List.mem_cons_of_mem _ hi, hp⟩)
        (fun x hx ⟨i, hi, hp⟩ => hQ x hx ⟨i, by rw [folderIdsT]; exact List.mem_cons_of_mem _ hi, hp⟩)

theorem subF_filter : ∀ (ts : FForest) (fol : List Folder) (fil : List FileItem)
    (P : Folder → Bool) (Q : FileItem → Bool),
    subF ts fol fil →
    (∀ g ∈ fol, (∃ i ∈ folderIdsF ts, g.parent_id = some i) → P g = true) →
    (∀ x ∈ fil, (∃ i ∈ folderIdsF ts, x.parent_id = some i) → Q x = true) →
    subF ts (fol.filter P) (fil.filter Q)
  | .nil, fol, fil, P, Q, _, _, _ => trivial
  | .cons t ts, fol, fil, P, Q, hsub, hP, hQ => by
    obtain ⟨ht, hts⟩ := hsub
    refine ⟨?_, ?_⟩
    · exact subT_filter t fol fil P Q ht
        (fun g hg ⟨i, hi, hp⟩ => hP g hg ⟨i, by rw [folderIdsF]; exact List.mem_append_left _ hi, hp⟩)
        (fun x hx ⟨i, hi, hp⟩ => hQ x hx ⟨i, by rw [folderIdsF]; exact List.mem_append_left _ hi, hp⟩)
    · exact subF_filter ts fol fil P Q hts
        (fun g hg ⟨i, hi, hp⟩ => hP g hg ⟨i, by rw [folderIdsF]; exact List.mem_append_right _ hi, hp⟩)
        (fun x hx ⟨i, hi, hp⟩ => hQ x hx ⟨i, by rw [folderIdsF]; exact List.mem_append_right _ hi, hp⟩)

end

mutual

theorem subT_closed : ∀ (t : FTree) (fol : List Folder) (fil : List FileItem),
    subT t fol fil →
    ∀ i ∈ folderIdsT t, ∀ g ∈ fol, g.parent_id = some i → g.id ∈ folderIdsT t
  | .node f fls cs, fol, fil, hsub, i, hi, g, hg, hp => by
    obtain ⟨hfil, hfol, hcs⟩ := hsub
    rw [folderIdsT] at hi ⊢
    rcases List.mem_cons.1 hi with h | h
    · subst h
      apply List.mem_cons_of_mem
      apply rootsF_id_mem cs
      rw [← hfol]
      exact List.mem_filter.2 ⟨hg, by simpa using hp⟩
    · exact List.mem_cons_of_mem _ (subF_closed cs fol fil hcs i h g hg hp)

theorem subF_closed : ∀ (ts : FForest) (fol : List Folder) (fil : List FileItem),
    subF ts fol fil →
    ∀ i ∈ folderIdsF ts, ∀ g ∈ fol, g.parent_id = some i → g.id ∈ folderIdsF ts
  | .nil, _, _, _, i, hi, _, _, _ => by
    rw [folderIdsF] at hi
    exact absurd hi (List.not_mem_nil i)
  | .cons t ts, fol, fil, hsub, i, hi, g, hg, hp => by
    obtain ⟨ht, hts⟩ := hsub
    rw [folderIdsF, List.mem_append] at hi ⊢
    rcases hi with h | h
    · exact .inl (subT_closed t fol fil ht i h g hg hp)
    · exact .inr (subF_closed ts fol fil hts i h g hg hp)

end

theorem filter_not_id_cons (l : List Folder) (i : String) (ids : List String) :
    (l.filter (fun g => ¬ g.id ∈ ids)).filter (fun g => ¬ g.id = i) =
      l.filter (fun g => ¬ g.id ∈ i :: ids) := by
  rw [List.filter_filter]
  apply List.filter_congr
  intro g _
  by_cases h1 : g.id = i <;> by_cases h2 : g.id ∈ ids <;> simp [h1, h2]

theorem filter_not_id_append (l : List Folder) (ids1 ids2 : List String) :
    (l.filter (fun g => ¬ g.id ∈ ids1)).filter (fun g => ¬ g.id ∈ ids2) =
      l.filter (fun g => ¬ g.id ∈ ids1 ++ ids2) := by
  rw [List.filter_filter]
  apply List.filter_congr
  intro g _
  by_cases h1 : g.id ∈ ids1 <;> by_cases h2 : g.id ∈ ids2 <;> simp [h1, h2]

theorem filter_not_parent_cons (l : List FileItem) (i : String) (ids : List String) :
    (l.filter (fun x => ¬ x.parent_id = some i)).filter (fun x => ¬ parentIn ids x) =
      l.filter (fun x => ¬ parentIn (i :: ids) x) := by
  rw [List.filter_filter]
  apply List.filter_congr
  intro x _
  rw [parentIn_cons]
  by_cases h1 : x.parent_id = some i <;> cases hpx : parentIn ids x <;> simp [h1, hpx]

theorem filter_not_parent_append (l : List FileItem) (ids1 ids2 : List String) :
    (l.filter (fun x => ¬ parentIn ids1 x)).filter (fun x => ¬ parentIn ids2 x) =
      l.filter (fun x => ¬ parentIn (ids1 ++ ids2) x) := by
  rw [List.filter_filter]
  apply List.filter_congr
  intro x _
  rw [parentIn_append]
  cases h1 : parentIn ids1 x <;> cases h2 : parentIn ids2 x <;> simp [h1, h2]

mutual

theorem delRec_spec (raises : String → Bool) :
    ∀ (t : FTree) (db : DB) (fuel : Nat),
    subT t db.folders db.files →
    (db.files.map (fun x => x.id)).Nodup →
    (folderIdsT t).Nodup →
    htT t < fuel →
    ∃ bl, delete_folder_recursive raises fuel db t.rootId =
      some (⟨db.folders.filter (fun g => ¬ g.id ∈ folderIdsT t),
             db.files.filter (fun x => ¬ parentIn (folderIdsT t) x), bl⟩,
            traceT t)
  | .node f fls cs, db, fuel, hsub, hndf, hndt, hfuel => by
    obtain ⟨hfil, hfol, hcs⟩ := hsub
    obtain ⟨n, rfl⟩ : ∃ n, fuel = n + 1 := ⟨fuel - 1, by omega⟩
    rw [folderIdsT] at hndt
    rw [List.nodup_cons] at hndt
    rw [htT] at hfuel
    have hrid : FTree.rootId (.node f fls cs) = f.id := rfl
    rw [hrid, delete_folder_recursive]
    have hloop := delete_files_loop_spec raises db
      (fun x => x.parent_id = some f.id) hndf
    rw [hfil] at hloop
    obtain ⟨h1, h2⟩ := hloop
    have h2x : (delete_files_loop raises db fls).files =
        db.files.filter (fun x => ¬ x.parent_id = some f.id) := by
      rw [h2]
      apply List.filter_congr
      intro x _
      simp
    rw [hfil, h1, hfol]
    have hpres := subF_filter cs db.folders db.files (fun _ => true)
      (fun x => ¬ x.parent_id = some f.id) hcs
      (fun g _ _ => rfl)
      (by
        rintro x _ ⟨i, hi, hp⟩
        rw [decide_eq_true_eq]
        intro hc
        rw [hp, Option.some.injEq] at hc
        exact hndt.1 (hc ▸ hi))
    rw [List.filter_true] at hpres
    have hsubF1 : subF cs (delete_files_loop raises db fls).folders
        (delete_files_loop raises db fls).files := by
      rw [h1, h2x]; exact hpres
    have hnd1 : ((delete_files_loop raises db fls).files.map (fun x => x.id)).Nodup := by
      rw [h2x]
      exact ((List.filter_sublist db.files).map _).nodup hndf
    obtain ⟨bl2, hdl⟩ := delList_spec raises cs (delete_files_loop raises db fls) n
      hsubF1 hnd1 hndt.2 (by omega)
    rw [h1, h2x] at hdl
    simp only [hdl]
    refine ⟨bl2, ?_⟩
    rw [filter_not_id_cons, filter_not_parent_cons, folderIdsT, traceT]

theorem delList_spec (raises : String → Bool) :
    ∀ (ts : FForest) (db : DB) (fuel : Nat),
    subF ts db.folders db.files →
    (db.files.map (fun x => x.id)).Nodup →
    (folderIdsF ts).Nodup →
    htF ts < fuel →
    ∃ bl, delete_folder_list raises fuel db ((rootsF ts).map (fun g => g.id)) =
      some (⟨db.folders.filter (fun g => ¬ g.id ∈ folderIdsF ts),
             db.files.filter (fun x => ¬ parentIn (folderIdsF ts) x), bl⟩,
            traceF ts)
  | .nil, db, fuel, _, _, _, _ => by
    rw [rootsF, List.map_nil, delete_folder_list, folderIdsF, traceF]
    refine ⟨db.blobs, ?_⟩
    have hfo : db.folders.filter (fun g => ¬ g.id ∈ ([] : List String)) = db.folders :=
      List.filter_eq_self.2 (fun g _ => by simp)
    have hfi : db.files.filter (fun x => ¬ parentIn [] x) = db.files :=
      List.filter_eq_self.2 (fun x _ => by simp [parentIn_nil])
    rw [hfo, hfi]
  | .cons t ts, db, fuel, hsub, hndf, hndids, hfuel => by
    obtain ⟨ht, hts⟩ := hsub
    rw [folderIdsF] at hndids
    rw [List.nodup_append] at hndids
    obtain ⟨hnd1, hnd2, hdisj⟩ := hndids
    rw [htF] at hfuel
    have hrw : (rootsF (.cons t ts)).map (fun g => g.id) =
        t.rootId :: (rootsF ts).map (fun g => g.id) := by
      rw [rootsF, List.map_cons]; rfl
    rw [hrw, delete_folder_list]
    obtain ⟨bl1, hr⟩ := delRec_spec raises t db fuel ht hndf hnd1 (by omega)
    simp only [hr]
    have hpres := subF_filter ts db.folders db.files
      (fun g => ¬ g.id ∈ folderIdsT t) (fun x => ¬ parentIn (folderIdsT t) x) hts
      (by
        rintro g hg ⟨i, hi, hp⟩
        rw [decide_eq_true_eq]
        intro hc
        exact hdisj hc (subF_closed ts db.folders db.files hts i hi g hg hp)
      )
      (by
        rintro x _ ⟨i, hi, hp⟩
        rw [decide_eq_true_eq]
        intro hc
        rw [parentIn.eq_def, hp] at hc
        simp only [decide_eq_true_eq] at hc
        exact hdisj hc hi
      )
    obtain ⟨bl2, hl⟩ := delList_spec raises ts
      ⟨db.folders.filter (fun g => ¬ g.id ∈ folderIdsT t),
       db.files.filter (fun x => ¬ parentIn (folderIdsT t) x), bl1⟩ fuel
      hpres
      (((List.filter_sublist db.files).map _).nodup hndf)
      hnd2 (by omega)
    simp only [hl]
    refine ⟨bl2, ?_⟩
    rw [filter_not_id_append, filter_not_parent_append, folderIdsF, traceF]

end

theorem length_filter_or {α : Type} (p q : α → Bool) :
    ∀ l : List α, (∀ x ∈ l, ¬(p x = true ∧ q x = true)) →
      (l.filter (fun x => p x || q x)).length =
        (l.filter p).length + (l.filter q).length := by
  intro l
  induction l with
  | nil => intro _; rfl
  | cons x xs ih =>
    intro h
    have hx := h x (List.mem_cons_self ..)
    have hxs := ih (fun y hy => h y (List.mem_cons_of_mem _ hy))
    cases hp : p x <;> cases hq : q x
    · simp [List.filter_cons, hp, hq, hxs]
    · simp [List.filter_cons, hp, hq]
      omega
    · simp [List.filter_cons, hp, hq]
      omega
    · exact absurd ⟨hp, hq⟩ hx

theorem length_filter_id_eq_one (l : List Folder)
    (hnd : (l.map (fun g => g.id)).Nodup) (x : Folder) (hx : x ∈ l) :
    (l.filter (fun g => g.id = x.id)).length = 1 := by
  induction l with
  | nil => exact absurd hx (List.not_mem_nil x)
  | cons y ys ih =>
    rw [List.map_cons, List.nodup_cons] at hnd
    rw [List.filter_cons]
    by_cases hy : y.id = x.id
    · rw [if_pos (by simpa using hy)]
      have hnone : ys.filter (fun g => g.id = x.id) = [] := by
        rw [List.filter_eq_nil_iff]
        intro z hz hc
        apply hnd.1
        rw [hy, ← (by simpa using hc : z.id = x.id)]
        exact List.mem_map_of_mem _ hz
      rw [hnone]
      rfl
    · rw [if_neg (by simpa using hy)]
      rcases List.mem_cons.1 hx with h | h
      · exact absurd (by rw [h]) hy
      · exact ih hnd.2 h

mutual

theorem count_folders_T : ∀ (t : FTree) (fol : List Folder) (fil : List FileItem),
    subT t fol fil → (folderIdsT t).Nodup → t.rootFolder ∈ fol →
    (fol.map (fun g => g.id)).Nodup →
    (fol.filter (fun g => g.id ∈ folderIdsT t)).length = (folderIdsT t).length
  | .node f fls cs, fol, fil, hsub, hndt, hroot, hndfol => by
    obtain ⟨hfil, hfol, hcs⟩ := hsub
    rw [folderIdsT] at hndt ⊢
    rw [List.nodup_cons] at hndt
    have hcongr : fol.filter (fun g => g.id ∈ f.id :: folderIdsF cs) =
        fol.filter (fun g => decide (g.id = f.id) || decide (g.id ∈ folderIdsF cs)) :=
      List.filter_congr (fun g _ => by simp [List.mem_cons])
    rw [hcongr, length_filter_or _ _ fol
      (by
        rintro g _ ⟨h1, h2⟩
        rw [decide_eq_true_eq] at h1 h2
        exact hndt.1 (h1 ▸ h2)),
      length_filter_id_eq_one fol hndfol f hroot,
      count_folders_F cs fol fil hcs hndt.2
        (fun g hg => List.mem_of_mem_filter (hfol ▸ hg)) hndfol,
      List.length_cons]
    omega
  
theorem count_folders_F : ∀ (ts : FForest) (fol : List Folder) (fil : List FileItem),
    subF ts fol fil → (folderIdsF ts).Nodup → (∀ g ∈ rootsF ts, g ∈ fol) →
    (fol.map (fun g => g.id)).Nodup →
    (fol.filter (fun g => g.id ∈ folderIdsF ts)).length = (folderIdsF ts).length
  | .nil, fol, fil, _, _, _, _ => by
    rw [folderIdsF]
    rw [List.filter_eq_nil_iff.2 (fun g _ => by simp)]
    rfl
  | .cons t ts, fol, fil, hsub, hndids, hroots, hndfol => by
    obtain ⟨ht, hts⟩ := hsub
    rw [folderIdsF] at hndids ⊢
    rw [List.nodup_append] at hndids
    obtain ⟨hnd1, hnd2, hdisj⟩ := hndids
    have hcongr : fol.filter (fun g => g.id ∈ folderIdsT t ++ folderIdsF ts) =
        fol.filter (fun g => decide (g.id ∈ folderIdsT t) || decide (g.id ∈ folderIdsF ts)) :=
      List.filter_congr (fun g _ => by simp [List.mem_append])
    rw [hcongr, length_filter_or _ _ fol
      (by
        rintro g _ ⟨h1, h2⟩
        rw [decide_eq_true_eq] at h1 h2
        exact hdisj h1 h2),
      count_folders_T t fol fil ht hnd1
        (hroots t.rootFolder (by rw [rootsF]; exact List.mem_cons_self ..)) hndfol,
      count_folders_F ts fol fil hts hnd2
        (fun g hg => hroots g (by rw [rootsF]; exact List.mem_cons_of_mem _ hg)) hndfol,
      List.length_append]

end

theorem parentIn_iff (ids : List String) (x : FileItem) :
    parentIn ids x = true ↔ ∃ p, x.parent_id = some p ∧ p ∈ ids := by
  rw [parentIn.eq_def]
  cases x.parent_id <;> simp

mutual

theorem count_files_T : ∀ (t : FTree) (fol : List Folder) (fil : List FileItem),
    subT t fol fil → (folderIdsT t).Nodup →
    (fil.filter (fun x => parentIn (folderIdsT t) x)).length = (filesT t).length
  | .node f fls cs, fol, fil, hsub, hndt => by
    obtain ⟨hfil, hfol, hcs⟩ := hsub
    rw [folderIdsT] at hndt ⊢
    rw [List.nodup_cons] at hndt
    have hcongr : fil.filter (fun x => parentIn (f.id :: folderIdsF cs) x) =
        fil.filter (fun x => decide (x.parent_id = some f.id) || parentIn (folderIdsF cs) x) :=
      List.filter_congr (fun x _ => by rw [parentIn_cons])
    rw [hcongr, length_filter_or _ _ fil
      (by
        rintro x _ ⟨h1, h2⟩
        rw [decide_eq_true_eq] at h1
        obtain ⟨p, hp, hmem⟩ := (parentIn_iff _ _).1 h2
        rw [h1, Option.some.injEq] at hp
        exact hndt.1 (hp ▸ hmem)),
      hfil, count_files_F cs fol fil hcs hndt.2, filesT, List.length_append]

theorem count_files_F : ∀ (ts : FForest) (fol : List Folder) (fil : List FileItem),
    subF ts fol fil → (folderIdsF ts).Nodup →
    (fil.filter (fun x => parentIn (folderIdsF ts) x)).length = (filesF ts).length
  | .nil, fol, fil, _, _ => by
    rw [folderIdsF]
    rw [List.filter_eq_nil_iff.2 (fun x _ => by simp [parentIn_nil])]
    rw [filesF]
  | .cons t ts, fol, fil, hsub, hndids => by
    obtain ⟨ht, hts⟩ := hsub
    rw [folderIdsF] at hndids ⊢
    rw [List.nodup_append] at hndids
    obtain ⟨hnd1, hnd2, hdisj⟩ := hndids
    have hcongr : fil.filter (fun x => parentIn (folderIdsT t ++ folderIdsF ts) x) =
        fil.filter (fun x => parentIn (folderIdsT t) x || parentIn (folderIdsF ts) x) :=
      List.filter_congr (fun x _ => by rw [parentIn_append])
    rw [hcongr, length_filter_or _ _ fil
      (by
        rintro x _ ⟨h1, h2⟩
        obtain ⟨p, hp, hmem1⟩ := (parentIn_iff _ _).1 h1
        obtain ⟨q, hq, hmem2⟩ := (parentIn_iff _ _).1 h2
        rw [hp, Option.some.injEq] at hq
        exact hdisj hmem1 (hq ▸ hmem2)),
      count_files_T t fol fil ht hnd1, count_files_F ts fol fil hts hnd2,
      filesF, List.length_append]

end

theorem length_filter_not_mem_add (ids : List String) :
    ∀ l : List Folder,
      (l.filter (fun g => ¬ g.id ∈ ids)).length +
        (l.filter (fun g => g.id ∈ ids)).length = l.length := by
  intro l
  induction l with
  | nil => rfl
  | cons x xs ih =>
    rw [List.filter_cons, List.filter_cons]
    by_cases h : x.id ∈ ids <;> simp [h, List.length_cons, ← ih] <;> omega

theorem length_filter_not_parentIn_add (ids : List String) :
    ∀ l : List FileItem,
      (l.filter (fun x => ¬ parentIn ids x)).length +
        (l.filter (fun x => parentIn ids x)).length = l.length := by
  intro l
  induction l with
  | nil => rfl
  | cons x xs ih =>
    rw [List.filter_cons, List.filter_cons]
    cases h : parentIn ids x <;> simp [h, List.length_cons, ← ih] <;> omega

/-- C5: deleting an existing folder whose subtree is acyclic (presented as
the tree `t`: root record, N direct file records, and the child subtrees
holding M descendant folder records and K descendant file records) succeeds
and (i) performs exactly the deletions of `traceT t`, i.e. at each level the
direct file records first, then each child subtree completely before the
next sibling, and the folder's own record last; (ii) removes exactly the
records whose id (for folders) or parent folder (for files) lies in the
subtree; (iii) in total removes the `(filesT t).length = N + K` file
records and the `(folderIdsT t).length = M + 1` folder records, and no
others. -/
theorem delete_folder_removes_subtree (raises : String → Bool) (fuel : Nat)
    (db : DB) (t : FTree)
    (hsub : subT t db.folders db.files)
    (hndFi : (db.files.map (fun x => x.id)).Nodup)
    (hndFo : (db.folders.map (fun g => g.id)).Nodup)
    (hndT : (folderIdsT t).Nodup)
    (hroot : t.rootFolder ∈ db.folders)
    (hfuel : htT t < fuel) :
    ∃ db2, delete_item_folder raises fuel db t.rootId = .ok db2 (traceT t) ∧
      db2.folders = db.folders.filter (fun g => ¬ g.id ∈ folderIdsT t) ∧
      db2.files = db.files.filter (fun x => ¬ parentIn (folderIdsT t) x) ∧
      db2.folders.length + (folderIdsT t).length = db.folders.length ∧
      db2.files.length + (filesT t).length = db.files.length := by
  obtain ⟨bl, hr⟩ := delRec_spec raises t db fuel hsub hndFi hndT hfuel
  have hrootid : t.rootId = t.rootFolder.id := rfl
  have hfind : db.folders.find? (fun g => g.id = t.rootId) = some t.rootFolder := by
    rw [hrootid]
    exact find_by_id hndFo hroot
  rw [delete_item_folder.eq_def, hfind]
  simp only [← hrootid, hr]
  refine ⟨_, rfl, rfl, rfl, ?_, ?_⟩
  · show (db.folders.filter (fun g => ¬ g.id ∈ folderIdsT t)).length +
      (folderIdsT t).length = db.folders.length
    have hc := count_folders_T t db.folders db.files hsub hndT hroot hndFo
    have hs := length_filter_not_mem_add (folderIdsT t) db.folders
    omega
  · show (db.files.filter (fun x => ¬ parentIn (folderIdsT t) x)).length +
      (filesT t).length = db.files.length
    have hc := count_files_T t db.folders db.files hsub hndT
    have hs := length_filter_not_parentIn_add (folderIdsT t) db.files
    omega

theorem delete_folder_removes_subtree_witness :
    ∃ db2, delete_item_folder noRaise 10 dbTreeEx tTreeEx.rootId = .ok db2 (traceT tTreeEx) ∧
      db2.folders = dbTreeEx.folders.filter (fun g => ¬ g.id ∈ folderIdsT tTreeEx) ∧
      db2.files = dbTreeEx.files.filter (fun x => ¬ parentIn (folderIdsT tTreeEx) x) ∧
      db2.folders.length + (folderIdsT tTreeEx).length = dbTreeEx.folders.length ∧
      db2.files.length + (filesT tTreeEx).length = dbTreeEx.files.length :=
  delete_folder_removes_subtree noRaise 10 dbTreeEx tTreeEx
    ⟨by decide, by decide, ⟨by decide, by decide, ⟨by decide, by decide, trivial⟩, trivial⟩, trivial⟩
    (by decide) (by decide) (by decide) (by decide) (by decide)

/-- C10: deleting a folder whose subtree is acyclic (presented as the tree
`t`) leaves every record outside the subtree untouched: a folder record
whose id is not one of the subtree's folder ids, and a file record whose
parent is not one of them, is still present afterwards, and no record is
added or modified (every surviving record was already in the store). -/
theorem delete_folder_frame (raises : String → Bool) (fuel : Nat)
    (db : DB) (t : FTree)
    (hsub : subT t db.folders db.files)
    (hndFi : (db.files.map (fun x => x.id)).Nodup)
    (hndFo : (db.folders.map (fun g => g.id)).Nodup)
    (hndT : (folderIdsT t).Nodup)
    (hroot : t.rootFolder ∈ db.folders)
    (hfuel : htT t < fuel) :
    ∃ db2 tr, delete_item_folder raises fuel db t.rootId = .ok db2 tr ∧
      (∀ g ∈ db.folders, ¬ g.id ∈ folderIdsT t → g ∈ db2.folders) ∧
      (∀ x ∈ db.files, ¬ parentIn (folderIdsT t) x = true → x ∈ db2.files) ∧
      (∀ g ∈ db2.folders, g ∈ db.folders) ∧
      (∀ x ∈ db2.files, x ∈ db.files) := by
  obtain ⟨bl, hr⟩ := delRec_spec raises t db fuel hsub hndFi hndT hfuel
  have hrootid : t.rootId = t.rootFolder.id := rfl
  have hfind : db.folders.find? (fun g => g.id = t.rootId) = some t.rootFolder := by
    rw [hrootid]
    exact find_by_id hndFo hroot
  rw [delete_item_folder.eq_def, hfind]
  simp only [← hrootid, hr]
  refine ⟨_, _, rfl, ?_, ?_, ?_, ?_⟩
  · intro g hg hnotin
    exact List.mem_filter.2 ⟨hg, by simpa using hnotin⟩
  · intro x hx hnotin
    exact List.mem_filter.2 ⟨hx, by simpa using hnotin⟩
  · intro g hg
    exact List.mem_of_mem_filter hg
  · intro x hx
    exact List.mem_of_mem_filter hx

theorem delete_folder_frame_witness :
    ∃ db2 tr, delete_item_folder noRaise 10 dbTreeEx tTreeEx.rootId = .ok db2 tr ∧
      (∀ g ∈ dbTreeEx.folders, ¬ g.id ∈ folderIdsT tTreeEx → g ∈ db2.folders) ∧
      (∀ x ∈ dbTreeEx.files, ¬ parentIn (folderIdsT tTreeEx) x = true → x ∈ db2.files) ∧
      (∀ g ∈ db2.folders, g ∈ dbTreeEx.folders) ∧
      (∀ x ∈ db2.files, x ∈ dbTreeEx.files) :=
  delete_folder_frame noRaise 10 dbTreeEx tTreeEx
    ⟨by decide, by decide, ⟨by decide, by decide, ⟨by decide, by decide, trivial⟩, trivial⟩, trivial⟩
    (by decide) (by decide) (by decide) (by decide) (by decide)
